import Mathlib

/-!
A verification development for the seed-cluster splitting tool
(`splitSeedCluster.py`): a sweep-line coverage construction over seed
borders, a depth-threshold state machine segmenting a cluster into
sub-clusters, margin-tolerant assignment of seeds to sub-clusters, and
ranked output of seed-protein pairs.

The Python source is embedded shallowly: Python ints become `Int`/`Nat`,
floats become `ℚ`, dictionaries become insertion-ordered association
lists, and operations that raise in Python (indexing an empty list,
dividing by zero) return `Option`.
-/

namespace SplitSeedCluster

/-- A boundary event of an interval: `Border(coordinate, start)`.
The constructor shift (`coordinate += 1` for an end event) is done by
`mkBorder`; the plain structure holds the already-shifted coordinate. -/
structure Border where
  coordinate : Int
  start : Bool
deriving Repr, DecidableEq

/-- `Border.__init__`: an end border is stored at `coordinate + 1`,
turning inclusive intervals into half-open ones for the sweep. -/
def mkBorder (coordinate : Int) (start : Bool) : Border :=
  if start then ⟨coordinate, start⟩ else ⟨coordinate + 1, start⟩

/-- A maximal constant-coverage run produced by the sweep:
`Block(start, end, coverage)` plus the diagnostic `state` tag written by
`labelBlocks`.  `end` is a Lean keyword, so the field is `endC`. -/
structure Block where
  start : Int
  endC : Int
  coverage : Int
  state : String
deriving Repr, DecidableEq

/-- The loop state of `computeCoverage`.  `blocksRev` holds the blocks in
reverse order (head = the Python list's `blocks[-1]`), so that appending
and updating the last block are head operations. -/
structure SweepState where
  coverage : Int
  blocksRev : List Block
  prevCoordinate : Int
  maxCoverage : Int
  meanCoverage : ℚ
deriving Repr

/-- One iteration of the `for border in borders` loop of
`computeCoverage`.  Between distinct coordinates the mean is accumulated
and the previous block is extended when its coverage equals the running
coverage, otherwise a new block is appended (and `maxCoverage` updated);
then the coverage counter is stepped and `prevCoordinate` advanced. -/
def sweepStep (clusterLength : Int) (s : SweepState) (border : Border) : SweepState :=
  let s1 :=
    if border.coordinate = s.prevCoordinate then s
    else
      let mc := s.meanCoverage +
        (((border.coordinate - s.prevCoordinate : Int) : ℚ) / (clusterLength : ℚ))
          * (s.coverage : ℚ)
      match s.blocksRev with
      | b :: rest =>
        if b.coverage = s.coverage then
          { s with blocksRev := { b with endC := border.coordinate } :: rest,
                   meanCoverage := mc }
        else
          { s with blocksRev := ⟨s.prevCoordinate, border.coordinate, s.coverage, ""⟩ :: b :: rest,
                   maxCoverage := if s.coverage > s.maxCoverage then s.coverage else s.maxCoverage,
                   meanCoverage := mc }
      | [] =>
        { s with blocksRev := [⟨s.prevCoordinate, border.coordinate, s.coverage, ""⟩],
                 maxCoverage := if s.coverage > s.maxCoverage then s.coverage else s.maxCoverage,
                 meanCoverage := mc }
  { s1 with
    coverage := if border.start then s1.coverage + 1 else s1.coverage - 1,
    prevCoordinate := border.coordinate }

/-- `computeCoverage(borders)`: sweep the sorted borders left to right and
return `(blocks, maxCoverage, meanCoverage)`.  The Python code indexes
`borders[0]` and `borders[-1]`, so the empty list (an `IndexError` there)
returns `none`. -/
def computeCoverage : List Border → Option (List Block × Int × ℚ)
  | [] => none
  | b :: bs =>
    let clusterLength := (bs.getLastD b).coordinate - b.coordinate
    let final := (b :: bs).foldl (sweepStep clusterLength)
      ⟨0, [], b.coordinate, 0, 0⟩
    some (final.blocksRev.reverse, final.maxCoverage, final.meanCoverage)

/-- Adjacency of consecutive blocks: the left block ends exactly where the
right one starts. -/
def blockAdj (a b : Block) : Prop := a.endC = b.start

/-- Invariant maintained by the `computeCoverage` sweep, relative to the
first border coordinate `first`.  `blocksRev` is the reversed block list,
so the chain relation is flipped and `head?`/`getLast?` swap roles. -/
structure SweepInv (first : Int) (s : SweepState) : Prop where
  emptyPrev : s.blocksRev = [] → s.prevCoordinate = first
  chain : List.Chain' (fun a b => b.endC = a.start) s.blocksRev
  headEnd : ∀ b, s.blocksRev.head? = some b → b.endC = s.prevCoordinate
  lastStart : ∀ b, s.blocksRev.getLast? = some b → b.start = first
  bounds : ∀ b ∈ s.blocksRev, b.start < b.endC
  firstLt : s.blocksRev ≠ [] → first < s.prevCoordinate
  lenSum : ((s.blocksRev.map fun b => b.endC - b.start).sum = s.prevCoordinate - first)

lemma sweepStep_coverage_blocks (cl : Int) (s : SweepState) (c : Border) :
    (sweepStep cl s c).prevCoordinate = c.coordinate := by
  unfold sweepStep
  by_cases h : c.coordinate = s.prevCoordinate <;> simp [h]

/-- One sweep step preserves the invariant, provided the borders arrive in
nondecreasing coordinate order. -/
lemma sweepStep_inv (cl first : Int) (s : SweepState) (c : Border)
    (hinv : SweepInv first s) (hle : s.prevCoordinate ≤ c.coordinate) :
    SweepInv first (sweepStep cl s c) := by
  obtain ⟨hEmpty, hChain, hHead, hLast, hBounds, hFirst, hSum⟩ := hinv
  unfold sweepStep
  by_cases heq : c.coordinate = s.prevCoordinate
  · simp only [heq, if_pos rfl]
    exact ⟨fun h => hEmpty h, hChain, fun b hb => hHead b hb, fun b hb => hLast b hb,
      hBounds, fun h => hFirst h, hSum⟩
  · have hlt : s.prevCoordinate < c.coordinate := lt_of_le_of_ne hle (fun h => heq h.symm)
    simp only [if_neg heq]
    cases hbr : s.blocksRev with
    | nil =>
      have hprev : s.prevCoordinate = first := hEmpty hbr
      refine ⟨by simp, by simp, ?_, ?_, ?_, ?_, ?_⟩
      · intro b hb
        simp only [List.head?_cons, Option.some.injEq] at hb
        simp [← hb]
      · intro b hb
        simp only [List.getLast?_singleton, Option.some.injEq] at hb
        simp [← hb, hprev]
      · intro b hb
        simp only [List.mem_singleton] at hb
        simp [hb, hlt]
      · intro _
        simp only []
        omega
      · simp [hprev]
    | cons b rest =>
      have hbend : b.endC = s.prevCoordinate := hHead b (by simp [hbr])
      by_cases hcov : b.coverage = s.coverage
      · -- extend the last block
        simp only [if_pos hcov]
        refine ⟨by simp, ?_, ?_, ?_, ?_, ?_, ?_⟩
        · have := hbr ▸ hChain
          cases rest with
          | nil => simp
          | cons b2 rest2 =>
            simp only [List.chain'_cons] at this ⊢
            exact ⟨this.1, this.2⟩
        · intro x hx
          simp only [List.head?_cons, Option.some.injEq] at hx
          simp [← hx]
        · intro x hx
          cases rest with
          | nil =>
            simp only [List.getLast?_singleton, Option.some.injEq] at hx
            have := hLast b (by simp [hbr])
            simp [← hx, this]
          | cons b2 rest2 =>
            have hx2 : (b2 :: rest2).getLast? = some x := by
              simpa [List.getLast?_cons_cons] using hx
            exact hLast x (by simp [hbr, List.getLast?_cons_cons, hx2])
        · intro x hx
          simp only [List.mem_cons] at hx
          rcases hx with hx | hx
          · have hb : b.start < b.endC := hBounds b (by simp [hbr])
            subst hx
            simp only []
            omega
          · exact hBounds x (by simp [hbr, hx])
        · intro _
          exact lt_trans (hFirst (by simp [hbr])) hlt
        · have := hbr ▸ hSum
          simp only [List.map_cons, List.sum_cons] at this ⊢
          omega
      · -- append a fresh block
        simp only [if_neg hcov]
        refine ⟨by simp, ?_, ?_, ?_, ?_, ?_, ?_⟩
        · have := hbr ▸ hChain
          simp only [List.chain'_cons] at this ⊢
          refine ⟨?_, this⟩
          simp [hbend]
        · intro x hx
          simp only [List.head?_cons, Option.some.injEq] at hx
          simp [← hx]
        · intro x hx
          have hx2 : (b :: rest).getLast? = some x := by
            simpa [List.getLast?_cons_cons] using hx
          exact hLast x (hbr ▸ hx2)
        · intro x hx
          simp only [List.mem_cons] at hx
          rcases hx with hx | hx | hx
          · subst hx
            simpa using hlt
          · have hb : b.start < b.endC := hBounds b (by simp [hbr])
            subst hx
            exact hb
          · exact hBounds x (by simp [hbr, hx])
        · intro _
          rcases (List.eq_nil_or_concat rest) with h | h
          · subst h
            have := hLast b (by simp [hbr])
            have hb : b.start < b.endC := hBounds b (by simp [hbr])
            show first < c.coordinate
            omega
          · exact lt_trans (hFirst (by simp [hbr])) hlt
        · have := hbr ▸ hSum
          simp only [List.map_cons, List.sum_cons] at this ⊢
          omega

/-- The sweep's fold preserves the invariant along a sorted border list and
ends with `prevCoordinate` equal to the last border's coordinate. -/
lemma sweep_fold_inv (cl first : Int) :
    ∀ (bs : List Border) (s : SweepState), SweepInv first s →
      List.Chain (fun x y => x ≤ y) s.prevCoordinate (bs.map Border.coordinate) →
      SweepInv first (List.foldl (sweepStep cl) s bs) ∧
      (List.foldl (sweepStep cl) s bs).prevCoordinate =
        (bs.map Border.coordinate).getLastD s.prevCoordinate
  | [], s, hinv, _ => ⟨hinv, rfl⟩
  | c :: rest, s, hinv, hchain => by
    simp only [List.map_cons, List.chain_cons] at hchain
    have hstep := sweepStep_inv cl first s c hinv hchain.1
    have hprev := sweepStep_coverage_blocks cl s c
    have hrec := sweep_fold_inv cl first rest (sweepStep cl s c) hstep
      (by rw [hprev]; exact hchain.2)
    simp only [List.foldl_cons, List.map_cons, List.getLastD_cons]
    exact ⟨hrec.1, by rw [hrec.2, hprev]⟩

/-- Structural facts about `computeCoverage` on a sorted, non-empty border
list, collected once and shared by the tiling and span theorems. -/
lemma computeCoverage_inv (b : Border) (bs : List Border)
    (hsorted : List.Chain' (fun x y : Border => x.coordinate ≤ y.coordinate) (b :: bs)) :
    ∃ blocks maxCov meanCov,
      computeCoverage (b :: bs) = some (blocks, maxCov, meanCov) ∧
      List.Chain' blockAdj blocks ∧
      (∀ x ∈ blocks, x.start < x.endC) ∧
      (b.coordinate < (bs.getLastD b).coordinate →
        blocks.head?.map Block.start = some b.coordinate ∧
        blocks.getLast?.map Block.endC = some (bs.getLastD b).coordinate) ∧
      (b.coordinate = (bs.getLastD b).coordinate → blocks = []) ∧
      (blocks.map fun x => x.endC - x.start).sum
        = (bs.getLastD b).coordinate - b.coordinate := by
  have hchainB : List.Chain (fun x y : Border => x.coordinate ≤ y.coordinate) b bs := hsorted
  have hchainI : List.Chain (fun x y : Int => x ≤ y) b.coordinate (bs.map Border.coordinate) :=
    List.chain_map_of_chain Border.coordinate (fun _ _ h => h) hchainB
  set cl := (bs.getLastD b).coordinate - b.coordinate with hcl
  set init : SweepState := ⟨0, [], b.coordinate, 0, 0⟩ with hinit
  have hinv0 : SweepInv b.coordinate init := by
    refine ⟨fun _ => rfl, by simp [hinit], ?_, ?_, ?_, ?_, by simp [hinit]⟩
    · intro x hx; simp [hinit] at hx
    · intro x hx; simp [hinit] at hx
    · intro x hx; simp [hinit] at hx
    · intro h; exact absurd rfl h
  have hchain0 : List.Chain (fun x y : Int => x ≤ y) init.prevCoordinate
      ((b :: bs).map Border.coordinate) := by
    simp only [List.map_cons, List.chain_cons]
    exact ⟨le_refl _, hchainI⟩
  obtain ⟨hinvF, hprevF⟩ := sweep_fold_inv cl b.coordinate (b :: bs) init hinv0 hchain0
  set F := List.foldl (sweepStep cl) init (b :: bs) with hF
  have hlast : F.prevCoordinate = (bs.getLastD b).coordinate := by
    rw [hprevF]
    simp only [List.map_cons, List.getLastD_cons]
    exact List.getLastD_map Border.coordinate bs b
  refine ⟨F.blocksRev.reverse, F.maxCoverage, F.meanCoverage, ?_, ?_, ?_, ?_, ?_, ?_⟩
  · simp only [computeCoverage, hF, hinit, hcl]
  · rw [List.chain'_reverse]
    exact hinvF.chain
  · intro x hx
    exact hinvF.bounds x (List.mem_reverse.mp hx)
  · intro hlt
    have hne : F.blocksRev ≠ [] := by
      intro h
      have := hinvF.emptyPrev h
      omega
    constructor
    · rw [List.head?_reverse, List.getLast?_eq_getLast F.blocksRev hne]
      have := hinvF.lastStart (F.blocksRev.getLast hne)
        (List.getLast?_eq_getLast F.blocksRev hne)
      simp [this]
    · rw [List.getLast?_reverse]
      rw [List.head?_eq_head (l := F.blocksRev) hne]
      have := hinvF.headEnd (F.blocksRev.head hne) (List.head?_eq_head hne)
      simp [this, hlast]
  · intro heq
    have : F.blocksRev = [] := by
      by_contra h
      have := hinvF.firstLt h
      omega
    simp [this]
  · have := hinvF.lenSum
    calc (F.blocksRev.reverse.map fun x => x.endC - x.start).sum
        = ((F.blocksRev.map fun x => x.endC - x.start).reverse).sum := by
          rw [List.map_reverse]
      _ = (F.blocksRev.map fun x => x.endC - x.start).sum := List.sum_reverse _
      _ = (bs.getLastD b).coordinate - b.coordinate := by omega

/-- C1: for every non-empty sorted seed-border list, the blocks returned by
`computeCoverage` tile the span from the first to the last border
coordinate exactly: consecutive blocks satisfy `endC = start` (no gaps, no
overlaps), every block is non-degenerate, the first block starts at the
first border coordinate and the last block ends at the last border
coordinate (when the span is non-trivial; a degenerate span gives no
blocks). -/
theorem computeCoverage_tiles (borders : List Border) (hne : borders ≠ [])
    (hsorted : List.Chain' (fun x y : Border => x.coordinate ≤ y.coordinate) borders) :
    ∃ blocks maxCov meanCov,
      computeCoverage borders = some (blocks, maxCov, meanCov) ∧
      List.Chain' blockAdj blocks ∧
      (∀ x ∈ blocks, x.start < x.endC) ∧
      ((borders.head hne).coordinate < (borders.getLast hne).coordinate →
        blocks.head?.map Block.start = some (borders.head hne).coordinate ∧
        blocks.getLast?.map Block.endC = some (borders.getLast hne).coordinate) ∧
      ((borders.head hne).coordinate = (borders.getLast hne).coordinate →
        blocks = []) := by
  match borders, hne with
  | b :: bs, _ =>
    obtain ⟨blocks, maxCov, meanCov, h1, h2, h3, h4, h5, _⟩ := computeCoverage_inv b bs hsorted
    refine ⟨blocks, maxCov, meanCov, h1, h2, h3, ?_, ?_⟩
    · rw [List.head_cons, List.getLast_eq_getLastD]
      exact h4
    · rw [List.head_cons, List.getLast_eq_getLastD]
      exact h5

/-- Witness for `computeCoverage_tiles` at a concrete sorted border list. -/
theorem computeCoverage_tiles_witness :
    ∃ blocks maxCov meanCov,
      computeCoverage [⟨1, true⟩, ⟨3, false⟩, ⟨10, true⟩, ⟨21, false⟩]
        = some (blocks, maxCov, meanCov) ∧
      List.Chain' blockAdj blocks ∧
      (∀ x ∈ blocks, x.start < x.endC) ∧
      (((1 : Int) < 21) →
        blocks.head?.map Block.start = some 1 ∧
        blocks.getLast?.map Block.endC = some 21) ∧
      (((1 : Int) = 21) → blocks = []) :=
  computeCoverage_tiles [⟨1, true⟩, ⟨3, false⟩, ⟨10, true⟩, ⟨21, false⟩]
    (by decide) (by norm_num [List.chain'_cons])

/-- C2 counterexample: `computeCoverage` has no zero-depth filter (that
filter exists only in `getMeanCDSCoverage`), so the sorted borders of the
seed intervals `[1,2]` and `[10,20]` produce the block `(3,10)` with
coverage `0` — a Block covering a span of zero depth. -/
theorem computeCoverage_zero_depth_block :
    ∃ r, computeCoverage [⟨1, true⟩, ⟨3, false⟩, ⟨10, true⟩, ⟨21, false⟩] = some r ∧
      ∃ x ∈ r.1, x.coverage = 0 ∧ x.start < x.endC := by
  refine ⟨_, rfl, ⟨3, 10, 0, ""⟩, ?_, rfl, by decide⟩
  decide

/-- C2 (amended): during the seed-level sweep in `computeCoverage`, a Block
is extended or newly opened for EVERY span between consecutive distinct
coordinates, regardless of its depth; zero-depth spans become blocks of
coverage `0`, so the blocks' total length is the whole border span. -/
theorem computeCoverage_spans_every_gap (borders : List Border) (hne : borders ≠ [])
    (hsorted : List.Chain' (fun x y : Border => x.coordinate ≤ y.coordinate) borders) :
    ∃ blocks maxCov meanCov,
      computeCoverage borders = some (blocks, maxCov, meanCov) ∧
      (blocks.map fun x => x.endC - x.start).sum
        = (borders.getLast hne).coordinate - (borders.head hne).coordinate := by
  match borders, hne with
  | b :: bs, _ =>
    obtain ⟨blocks, maxCov, meanCov, h1, _, _, _, _, h6⟩ := computeCoverage_inv b bs hsorted
    refine ⟨blocks, maxCov, meanCov, h1, ?_⟩
    rw [List.head_cons, List.getLast_eq_getLastD]
    exact h6

/-- Witness for `computeCoverage_spans_every_gap` at a concrete sorted
border list: the block lengths sum to the full span `21 - 1`. -/
theorem computeCoverage_spans_every_gap_witness :
    ∃ blocks maxCov meanCov,
      computeCoverage [⟨1, true⟩, ⟨3, false⟩, ⟨10, true⟩, ⟨21, false⟩]
        = some (blocks, maxCov, meanCov) ∧
      (blocks.map fun x => x.endC - x.start).sum = 21 - 1 :=
  computeCoverage_spans_every_gap [⟨1, true⟩, ⟨3, false⟩, ⟨10, true⟩, ⟨21, false⟩]
    (by decide) (by norm_num [List.chain'_cons])

/-! ### The CDS-level sweep (`getMeanCDSCoverage`) -/

/-- The loop state of `getMeanCDSCoverage`: the running depth, the previous
coordinate, and the two accumulators (all Python ints). -/
structure CDSSweepState where
  coverage : Int
  prevCoordinate : Int
  meanCoverage : Int
  CDSArea : Int
deriving Repr

/-- One iteration of the `for border in CDSBorders` loop: accumulate
span length and span-times-depth only over spans of non-zero depth, then
step the counter. -/
def cdsStep (s : CDSSweepState) (border : Border) : CDSSweepState :=
  let s1 :=
    if border.coordinate ≠ s.prevCoordinate ∧ s.coverage ≠ 0 then
      { s with CDSArea := s.CDSArea + (border.coordinate - s.prevCoordinate),
               meanCoverage := s.meanCoverage
                 + (border.coordinate - s.prevCoordinate) * s.coverage }
    else s
  { s1 with
    coverage := if border.start then s1.coverage + 1 else s1.coverage - 1,
    prevCoordinate := border.coordinate }

/-- `getMeanCDSCoverage(CDSBorders)`: the final `meanCoverage / CDSArea` is
a Python `ZeroDivisionError` when the covered area is zero, and indexing
`CDSBorders[0]` fails on an empty list; both fatal paths return `none`. -/
def getMeanCDSCoverage : List Border → Option ℚ
  | [] => none
  | b :: bs =>
    let final := (b :: bs).foldl cdsStep ⟨0, b.coordinate, 0, 0⟩
    if final.CDSArea = 0 then none
    else some ((final.meanCoverage : ℚ) / (final.CDSArea : ℚ))

/-- Spec-side reading of the CDS-covered area: the total length of the
spans between consecutive borders over which the running depth is
non-zero. -/
def coveredArea (depth prev : Int) : List Border → Int
  | [] => 0
  | b :: rest =>
    (if b.coordinate ≠ prev ∧ depth ≠ 0 then b.coordinate - prev else 0)
      + coveredArea (if b.start then depth + 1 else depth - 1) b.coordinate rest

/-- Spec-side reading of the CDS numerator: the sum of span length times
depth over the spans of non-zero depth. -/
def coveredDepthSum (depth prev : Int) : List Border → Int
  | [] => 0
  | b :: rest =>
    (if b.coordinate ≠ prev ∧ depth ≠ 0 then (b.coordinate - prev) * depth else 0)
      + coveredDepthSum (if b.start then depth + 1 else depth - 1) b.coordinate rest

lemma cdsStep_fields (s : CDSSweepState) (b : Border) :
    (cdsStep s b).coverage = (if b.start then s.coverage + 1 else s.coverage - 1) ∧
    (cdsStep s b).prevCoordinate = b.coordinate ∧
    (cdsStep s b).CDSArea = s.CDSArea +
      (if b.coordinate ≠ s.prevCoordinate ∧ s.coverage ≠ 0
        then b.coordinate - s.prevCoordinate else 0) ∧
    (cdsStep s b).meanCoverage = s.meanCoverage +
      (if b.coordinate ≠ s.prevCoordinate ∧ s.coverage ≠ 0
        then (b.coordinate - s.prevCoordinate) * s.coverage else 0) := by
  unfold cdsStep
  by_cases h : b.coordinate ≠ s.prevCoordinate ∧ s.coverage ≠ 0 <;> simp [h]

/-- The CDS sweep's accumulators compute exactly the spec-level covered
area and covered depth sum. -/
lemma cds_fold_acc : ∀ (bs : List Border) (s : CDSSweepState),
    (bs.foldl cdsStep s).CDSArea
      = s.CDSArea + coveredArea s.coverage s.prevCoordinate bs ∧
    (bs.foldl cdsStep s).meanCoverage
      = s.meanCoverage + coveredDepthSum s.coverage s.prevCoordinate bs
  | [], s => by simp [coveredArea, coveredDepthSum]
  | b :: rest, s => by
    obtain ⟨hcov, hprev, harea, hmean⟩ := cdsStep_fields s b
    have ih := cds_fold_acc rest (cdsStep s b)
    simp only [List.foldl_cons, coveredArea, coveredDepthSum]
    constructor
    · rw [ih.1, harea, hcov, hprev]
      ring
    · rw [ih.2, hmean, hcov, hprev]
      ring

/-- C8: when the CDS-covered area is zero, `getMeanCDSCoverage` fails (the
Python `ZeroDivisionError`, modelled as `none`) rather than returning a
default; when the covered area is non-zero it returns the sum of
span-times-depth over the non-zero-depth spans divided by the sum of those
spans. -/
theorem getMeanCDSCoverage_fatal_or_ratio (b : Border) (bs : List Border) :
    (coveredArea 0 b.coordinate (b :: bs) = 0 →
      getMeanCDSCoverage (b :: bs) = none) ∧
    (coveredArea 0 b.coordinate (b :: bs) ≠ 0 →
      getMeanCDSCoverage (b :: bs)
        = some ((coveredDepthSum 0 b.coordinate (b :: bs) : ℚ)
            / (coveredArea 0 b.coordinate (b :: bs) : ℚ))) := by
  have hacc := cds_fold_acc (b :: bs) ⟨0, b.coordinate, 0, 0⟩
  simp only [getMeanCDSCoverage]
  constructor
  · intro h
    rw [if_pos]
    rw [hacc.1]
    simpa using h
  · intro h
    rw [if_neg, hacc.1, hacc.2]
    · norm_num
    · rw [hacc.1]
      simpa using h

/-- Witness for `getMeanCDSCoverage_fatal_or_ratio`: a zero-area border
list is fatal; borders of the single interval `[1,2]` give mean depth 1. -/
theorem getMeanCDSCoverage_fatal_or_ratio_witness :
    getMeanCDSCoverage [⟨5, true⟩, ⟨5, false⟩] = none ∧
    getMeanCDSCoverage [⟨1, true⟩, ⟨3, false⟩] = some 1 := by
  constructor
  · exact (getMeanCDSCoverage_fatal_or_ratio ⟨5, true⟩ [⟨5, false⟩]).1 (by decide)
  · have h := (getMeanCDSCoverage_fatal_or_ratio ⟨1, true⟩ [⟨3, false⟩]).2 (by decide)
    have h1 : coveredDepthSum 0 (Border.mk 1 true).coordinate
        [⟨1, true⟩, ⟨3, false⟩] = 2 := by decide
    have h2 : coveredArea 0 (Border.mk 1 true).coordinate
        [⟨1, true⟩, ⟨3, false⟩] = 2 := by decide
    rw [h, h1, h2]
    norm_num

/-! ### Seeds, rows and `loadSeeds` -/

/-- A merged seed (one per seed id). -/
structure Seed where
  chrom : String
  protein : String
  start : Int
  endC : Int
  score : ℚ
  strand : String
  clusterID : String
deriving Repr, DecidableEq

/-- `Seed.updateSeed`: widen the interval, accumulate the score. -/
def Seed.updateSeed (s : Seed) (start endC : Int) (score : ℚ) : Seed :=
  { s with start := min s.start start, endC := max s.endC endC,
           score := s.score + score }

/-- One tab-separated input row, keeping exactly the fields `loadSeeds`
reads: `row[0]`=chrom, `row[1]`=protein, `row[2]`=start, `row[3]`=end,
`row[6]`=score, `row[7]`=strand, `row[8]`=seedID, `row[9]`=clusterID. -/
structure Row where
  chrom : String
  protein : String
  start : Int
  endC : Int
  score : ℚ
  strand : String
  seedID : String
  clusterID : String
deriving Repr, DecidableEq

/-- The Seed built from the first row seen with a given seed id. -/
def seedOfRow (row : Row) : Seed :=
  ⟨row.chrom, row.protein, row.start, row.endC, row.score, row.strand, row.clusterID⟩

/-- Lookup in the insertion-ordered association list modelling the Python
dict `seeds` (`seedID in seeds` / `seeds[seedID]`). -/
def findSeed (sid : String) : List (String × Seed) → Option Seed
  | [] => none
  | kv :: rest => if kv.1 = sid then some kv.2 else findSeed sid rest

/-- In-place update of the entry with key `sid`
(`seeds[seedID].updateSeed(...)`). -/
def updateAssoc (sid : String) (start endC : Int) (score : ℚ) :
    List (String × Seed) → List (String × Seed)
  | [] => []
  | kv :: rest =>
    if kv.1 = sid then
      (kv.1, kv.2.updateSeed start endC score) :: updateAssoc sid start endC score rest
    else kv :: updateAssoc sid start endC score rest

/-- One iteration of the row loop of `loadSeeds`: create or merge the
seed, and append the two CDS borders. -/
def loadStep (acc : List (String × Seed) × List Border) (row : Row) :
    List (String × Seed) × List Border :=
  let seeds :=
    match findSeed row.seedID acc.1 with
    | none => acc.1 ++ [(row.seedID, seedOfRow row)]
    | some _ => updateAssoc row.seedID row.start row.endC row.score acc.1
  (seeds, acc.2 ++ [mkBorder row.start true, mkBorder row.endC false])

/-- `loadSeeds(clusterFile)`: fold the rows, then sort the CDS borders by
coordinate (Python's stable `list.sort` under `Border.__lt__`). -/
def loadSeeds (rows : List Row) : List (String × Seed) × List Border :=
  let r := rows.foldl loadStep ([], [])
  (r.1, r.2.mergeSort (fun a b => decide (a.coordinate ≤ b.coordinate)))

/-- `makeSeedBorders(seeds)`: one start and one (shifted) end border per
merged seed, sorted by coordinate. -/
def makeSeedBorders (seeds : List (String × Seed)) : List Border :=
  ((seeds.map fun kv => [mkBorder kv.2.start true, mkBorder kv.2.endC false]).flatten).mergeSort
    (fun a b => decide (a.coordinate ≤ b.coordinate))

/-- Spec-side accumulator for the rows sharing one seed id: the first row
creates the seed, every later row is merged by `updateSeed`. -/
def mergeStep (o : Option Seed) (row : Row) : Option Seed :=
  match o with
  | none => some (seedOfRow row)
  | some s => some (s.updateSeed row.start row.endC row.score)

/-- Merging a list of later rows into an existing seed. -/
def mergeAll (s : Seed) (rows : List Row) : Seed :=
  rows.foldl (fun a r => a.updateSeed r.start r.endC r.score) s

lemma findSeed_append_of_none {sid : String} {l : List (String × Seed)}
    (h : findSeed sid l = none) (t : String) (s : Seed) :
    findSeed sid (l ++ [(t, s)]) = if t = sid then some s else none := by
  induction l with
  | nil => simp [findSeed]
  | cons kv rest ih =>
    simp only [findSeed] at h ⊢
    by_cases hk : kv.1 = sid
    · simp [hk] at h
    · simp only [if_neg hk] at h ⊢
      exact ih h

lemma findSeed_append_of_some {sid : String} {l : List (String × Seed)} {x : Seed}
    (h : findSeed sid l = some x) (l' : List (String × Seed)) :
    findSeed sid (l ++ l') = some x := by
  induction l with
  | nil => simp [findSeed] at h
  | cons kv rest ih =>
    simp only [findSeed] at h ⊢
    by_cases hk : kv.1 = sid
    · simpa [hk] using h
    · simp only [if_neg hk] at h ⊢
      exact ih h

lemma findSeed_updateAssoc_same (sid : String) (a b : Int) (c : ℚ)
    (l : List (String × Seed)) :
    findSeed sid (updateAssoc sid a b c l)
      = (findSeed sid l).map (fun s => s.updateSeed a b c) := by
  induction l with
  | nil => simp [findSeed, updateAssoc]
  | cons kv rest ih =>
    by_cases hk : kv.1 = sid
    · simp [findSeed, updateAssoc, hk]
    · simp [findSeed, updateAssoc, hk, ih]

lemma findSeed_updateAssoc_ne {t sid : String} (h : t ≠ sid) (a b : Int) (c : ℚ)
    (l : List (String × Seed)) :
    findSeed sid (updateAssoc t a b c l) = findSeed sid l := by
  have h' : ¬ sid = t := fun hh => h hh.symm
  induction l with
  | nil => simp [findSeed, updateAssoc]
  | cons kv rest ih =>
    by_cases hk : kv.1 = t
    · have hks : ¬ kv.1 = sid := by rw [hk]; exact h
      simp [findSeed, updateAssoc, hk, hks, ih, h', h]
    · by_cases hks : kv.1 = sid
      · simp [findSeed, updateAssoc, hk, hks, h']
      · simp [findSeed, updateAssoc, hk, hks, ih]

/-- What one row of `loadSeeds` does to the entry of a fixed seed id. -/
lemma findSeed_loadStep (sid : String) (acc : List (String × Seed) × List Border)
    (row : Row) :
    findSeed sid (loadStep acc row).1
      = if row.seedID = sid then mergeStep (findSeed sid acc.1) row
        else findSeed sid acc.1 := by
  unfold loadStep
  by_cases hsid : row.seedID = sid
  · subst hsid
    rw [if_pos rfl]
    cases hf : findSeed row.seedID acc.1 with
    | none =>
      simp only [hf]
      rw [findSeed_append_of_none hf]
      simp [mergeStep, hf]
    | some x =>
      simp only [hf]
      rw [findSeed_updateAssoc_same, hf]
      rfl
  · rw [if_neg hsid]
    cases hf : findSeed row.seedID acc.1 with
    | none =>
      simp only [hf]
      cases hg : findSeed sid acc.1 with
      | none => rw [findSeed_append_of_none hg, if_neg hsid]
      | some y => rw [findSeed_append_of_some hg]
    | some x =>
      simp only [hf]
      exact findSeed_updateAssoc_ne hsid _ _ _ _

/-- The entry of a fixed seed id after the whole row loop is the
`mergeStep` fold over exactly the rows carrying that id. -/
lemma loadSeeds_filter_fold (sid : String) :
    ∀ (rows : List Row) (acc : List (String × Seed) × List Border),
    findSeed sid (rows.foldl loadStep acc).1
      = (rows.filter fun x => x.seedID = sid).foldl mergeStep (findSeed sid acc.1)
  | [], _ => rfl
  | row :: rest, acc => by
    have ih := loadSeeds_filter_fold sid rest (loadStep acc row)
    simp only [List.foldl_cons, List.filter_cons]
    rw [ih, findSeed_loadStep]
    by_cases hsid : row.seedID = sid
    · simp [hsid]
    · simp [hsid]

lemma mergeStep_fold_some : ∀ (rows : List Row) (s : Seed),
    rows.foldl mergeStep (some s) = some (mergeAll s rows)
  | [], s => by simp [mergeAll]
  | row :: rest, s => by
    simp only [List.foldl_cons, mergeStep, mergeAll] at *
    exact mergeStep_fold_some rest _

lemma mergeAll_fields : ∀ (rows : List Row) (s : Seed),
    (mergeAll s rows).start = (rows.map Row.start).foldl min s.start ∧
    (mergeAll s rows).endC = (rows.map Row.endC).foldl max s.endC ∧
    (mergeAll s rows).score = s.score + (rows.map Row.score).sum ∧
    (mergeAll s rows).chrom = s.chrom ∧
    (mergeAll s rows).protein = s.protein ∧
    (mergeAll s rows).strand = s.strand ∧
    (mergeAll s rows).clusterID = s.clusterID
  | [], s => by simp [mergeAll]
  | row :: rest, s => by
    have ih := mergeAll_fields rest (s.updateSeed row.start row.endC row.score)
    simp only [mergeAll, List.foldl_cons, List.map_cons, List.sum_cons] at ih ⊢
    refine ⟨?_, ?_, ?_, ?_, ?_, ?_, ?_⟩
    · rw [ih.1]; rfl
    · rw [ih.2.1]; rfl
    · rw [ih.2.2.1]
      show s.score + row.score + _ = _
      ring
    · rw [ih.2.2.2.1]; rfl
    · rw [ih.2.2.2.2.1]; rfl
    · rw [ih.2.2.2.2.2.1]; rfl
    · rw [ih.2.2.2.2.2.2]; rfl

lemma foldl_min_spec (l : List Int) : ∀ (a : Int),
    l.foldl min a ∈ a :: l ∧ ∀ x ∈ a :: l, l.foldl min a ≤ x := by
  induction l with
  | nil => intro a; simp
  | cons b t ih =>
    intro a
    obtain ⟨hmem, hle⟩ := ih (min a b)
    simp only [List.foldl_cons]
    constructor
    · rcases List.mem_cons.mp hmem with h | h
      · rcases min_choice a b with hc | hc
        · rw [h, hc]; simp
        · rw [h, hc]; simp
      · simp [h]
    · intro x hx
      rcases List.mem_cons.mp hx with h | h
      · rw [h]
        exact le_trans (hle _ (by simp)) (min_le_left a b)
      · rcases List.mem_cons.mp h with h2 | h2
        · rw [h2]
          exact le_trans (hle _ (by simp)) (min_le_right a b)
        · exact hle x (by simp [h2])

lemma foldl_max_spec (l : List Int) : ∀ (a : Int),
    l.foldl max a ∈ a :: l ∧ ∀ x ∈ a :: l, x ≤ l.foldl max a := by
  induction l with
  | nil => intro a; simp
  | cons b t ih =>
    intro a
    obtain ⟨hmem, hle⟩ := ih (max a b)
    simp only [List.foldl_cons]
    constructor
    · rcases List.mem_cons.mp hmem with h | h
      · rcases max_choice a b with hc | hc
        · rw [h, hc]; simp
        · rw [h, hc]; simp
      · simp [h]
    · intro x hx
      rcases List.mem_cons.mp hx with h | h
      · rw [h]
        exact le_trans (le_max_left a b) (hle _ (by simp))
      · rcases List.mem_cons.mp h with h2 | h2
        · rw [h2]
          exact le_trans (le_max_right a b) (hle _ (by simp))
        · exact hle x (by simp [h2])

/-- Full characterisation of the merged seed of a seed id: interval
envelope, score sum, and the identity fields of the first row. -/
lemma loadSeeds_merge_core (rows : List Row) (sid : String) (r : Row) (rs : List Row)
    (hfil : rows.filter (fun x => x.seedID = sid) = r :: rs) :
    ∃ s, findSeed sid (loadSeeds rows).1 = some s ∧
      (s.start ∈ (r :: rs).map Row.start ∧ ∀ x ∈ (r :: rs).map Row.start, s.start ≤ x) ∧
      (s.endC ∈ (r :: rs).map Row.endC ∧ ∀ x ∈ (r :: rs).map Row.endC, x ≤ s.endC) ∧
      s.score = ((r :: rs).map Row.score).sum ∧
      s.chrom = r.chrom ∧ s.protein = r.protein ∧
      s.strand = r.strand ∧ s.clusterID = r.clusterID := by
  have hfold : findSeed sid (loadSeeds rows).1
      = (rows.filter fun x => x.seedID = sid).foldl mergeStep none := by
    show findSeed sid (rows.foldl loadStep ([], [])).1 = _
    exact loadSeeds_filter_fold sid rows ([], [])
  rw [hfil] at hfold
  simp only [List.foldl_cons] at hfold
  have hstep : mergeStep none r = some (seedOfRow r) := rfl
  rw [hstep, mergeStep_fold_some] at hfold
  obtain ⟨h1, h2, h3, h4, h5, h6, h7⟩ := mergeAll_fields rs (seedOfRow r)
  refine ⟨mergeAll (seedOfRow r) rs, hfold, ?_, ?_, ?_, h4, h5, h6, h7⟩
  · have := foldl_min_spec (rs.map Row.start) (seedOfRow r).start
    rw [h1]
    simpa [seedOfRow] using this
  · have := foldl_max_spec (rs.map Row.endC) (seedOfRow r).endC
    rw [h2]
    simpa [seedOfRow] using this
  · rw [h3]
    simp [seedOfRow]

/-- C9: for the rows of an input sharing a seed id, the merged Seed
produced by `loadSeeds` has interval `[min starts, max ends]` and score
equal to the sum of the rows' scores, and those values are independent of
the order in which the rows appear. -/
theorem loadSeeds_merge (rows : List Row) (sid : String) (r : Row) (rs : List Row)
    (hfil : rows.filter (fun x => x.seedID = sid) = r :: rs) :
    ∃ s, findSeed sid (loadSeeds rows).1 = some s ∧
      (s.start ∈ (r :: rs).map Row.start ∧ ∀ x ∈ (r :: rs).map Row.start, s.start ≤ x) ∧
      (s.endC ∈ (r :: rs).map Row.endC ∧ ∀ x ∈ (r :: rs).map Row.endC, x ≤ s.endC) ∧
      s.score = ((r :: rs).map Row.score).sum ∧
      (∀ rows₂, List.Perm (rows₂.filter (fun x => x.seedID = sid)) (r :: rs) →
        ∃ s₂, findSeed sid (loadSeeds rows₂).1 = some s₂ ∧
          s₂.start = s.start ∧ s₂.endC = s.endC ∧ s₂.score = s.score) := by
  obtain ⟨s, hs, hmin, hmax, hscore, _, _, _, _⟩ := loadSeeds_merge_core rows sid r rs hfil
  refine ⟨s, hs, hmin, hmax, hscore, ?_⟩
  intro rows₂ hperm
  cases hfil₂ : rows₂.filter (fun x => x.seedID = sid) with
  | nil =>
    rw [hfil₂] at hperm
    exact absurd hperm.symm (by simp)
  | cons r₂ rs₂ =>
    obtain ⟨s₂, hs₂, hmin₂, hmax₂, hscore₂, _, _, _, _⟩ :=
      loadSeeds_merge_core rows₂ sid r₂ rs₂ hfil₂
    rw [hfil₂] at hperm
    have hpermS := hperm.map Row.start
    have hpermE := hperm.map Row.endC
    have hpermW := hperm.map Row.score
    refine ⟨s₂, hs₂, ?_, ?_, ?_⟩
    · exact le_antisymm (hmin₂.2 _ (hpermS.mem_iff.mpr hmin.1))
        (hmin.2 _ (hpermS.mem_iff.mp hmin₂.1))
    · exact le_antisymm (hmax.2 _ (hpermE.mem_iff.mp hmax₂.1))
        (hmax₂.2 _ (hpermE.mem_iff.mpr hmax.1))
    · rw [hscore₂, hscore, hpermW.sum_eq]

/-- Two rows of one seed id, used as concrete witnesses. -/
def sampleRowA : Row := ⟨"chr1", "p1", 100, 200, 10, "+", "s1", "c1"⟩

def sampleRowB : Row := ⟨"chr1", "p2", 50, 210, 5, "+", "s1", "c1"⟩

/-- Witness for `loadSeeds_merge`: two rows of seed id `s1` merge to the
envelope `[50, 210]` with score `15`, whatever their order. -/
theorem loadSeeds_merge_witness :
    ∃ s, findSeed "s1" (loadSeeds [sampleRowA, sampleRowB]).1 = some s ∧
      (s.start ∈ [sampleRowA, sampleRowB].map Row.start ∧
        ∀ x ∈ [sampleRowA, sampleRowB].map Row.start, s.start ≤ x) ∧
      (s.endC ∈ [sampleRowA, sampleRowB].map Row.endC ∧
        ∀ x ∈ [sampleRowA, sampleRowB].map Row.endC, x ≤ s.endC) ∧
      s.score = ([sampleRowA, sampleRowB].map Row.score).sum ∧
      (∀ rows₂, List.Perm (rows₂.filter (fun x => x.seedID = "s1")) [sampleRowA, sampleRowB] →
        ∃ s₂, findSeed "s1" (loadSeeds rows₂).1 = some s₂ ∧
          s₂.start = s.start ∧ s₂.endC = s.endC ∧ s₂.score = s.score) :=
  loadSeeds_merge [sampleRowA, sampleRowB] "s1" sampleRowA [sampleRowB] (by decide)

/-- C10: `Seed.updateSeed` modifies only the `start`, `endC` and `score`
fields, and in `loadSeeds` the merged seed of an id keeps the chrom,
protein, strand and clusterID of the first row seen with that id; the
corresponding fields of all later rows are ignored. -/
theorem updateSeed_frame (s : Seed) (a b : Int) (c : ℚ) (rows : List Row) (sid : String)
    (r : Row) (rs : List Row)
    (hfil : rows.filter (fun x => x.seedID = sid) = r :: rs) :
    (s.updateSeed a b c).chrom = s.chrom ∧
    (s.updateSeed a b c).protein = s.protein ∧
    (s.updateSeed a b c).strand = s.strand ∧
    (s.updateSeed a b c).clusterID = s.clusterID ∧
    ∃ m, findSeed sid (loadSeeds rows).1 = some m ∧
      m.chrom = r.chrom ∧ m.protein = r.protein ∧
      m.strand = r.strand ∧ m.clusterID = r.clusterID := by
  obtain ⟨m, hm, _, _, _, h1, h2, h3, h4⟩ := loadSeeds_merge_core rows sid r rs hfil
  exact ⟨rfl, rfl, rfl, rfl, m, hm, h1, h2, h3, h4⟩

/-- A concrete seed for the `updateSeed_frame` witness. -/
def sampleSeed : Seed := ⟨"chr1", "p1", 100, 200, 10, "+", "c1"⟩

/-- Witness for `updateSeed_frame`: updating `sampleSeed` keeps its
identity fields, and the seed id `s1` merged from two rows keeps the
first row's identity fields. -/
theorem updateSeed_frame_witness :
    (sampleSeed.updateSeed 50 210 5).chrom = sampleSeed.chrom ∧
    (sampleSeed.updateSeed 50 210 5).protein = sampleSeed.protein ∧
    (sampleSeed.updateSeed 50 210 5).strand = sampleSeed.strand ∧
    (sampleSeed.updateSeed 50 210 5).clusterID = sampleSeed.clusterID ∧
    ∃ m, findSeed "s1" (loadSeeds [sampleRowA, sampleRowB]).1 = some m ∧
      m.chrom = sampleRowA.chrom ∧ m.protein = sampleRowA.protein ∧
      m.strand = sampleRowA.strand ∧ m.clusterID = sampleRowA.clusterID :=
  updateSeed_frame sampleSeed 50 210 5 [sampleRowA, sampleRowB] "s1"
    sampleRowA [sampleRowB] (by decide)

/-! ### Sub-clusters and the `labelBlocks` state machine -/

/-- A sub-cluster.  In Python the `end` attribute is created only by
`close`; here `endC` starts at `0` and every path of `labelBlocks` and
its callers calls `close` before reading it. -/
structure SubCluster where
  start : Int
  endC : Int
  index : Nat
  seeds : List Seed
deriving Repr, DecidableEq

/-- `SubCluster.__init__(start, index)`. -/
def SubCluster.init (start : Int) (index : Nat) : SubCluster := ⟨start, 0, index, []⟩

/-- `SubCluster.close(end)`. -/
def SubCluster.close (sc : SubCluster) (e : Int) : SubCluster := { sc with endC := e }

/-- `SubCluster.addSeed(seed)`. -/
def SubCluster.addSeed (sc : SubCluster) (s : Seed) : SubCluster :=
  { sc with seeds := sc.seeds ++ [s] }

/-- Update the last element of a list (`xs[-1] = ...` / method call on
`xs[-1]`). -/
def modifyLast (f : α → α) : List α → List α
  | [] => []
  | [a] => [f a]
  | a :: b :: rest => a :: modifyLast f (b :: rest)

/-- Python `int()` truncates toward zero. -/
def pyInt (q : ℚ) : Int := if 0 ≤ q then Int.floor q else Int.ceil q

/-- The loop state of `labelBlocks`: the machine state string, the
sub-clusters built so far, and the state-tagged blocks (in reverse). -/
structure LabelState where
  state : String
  subClusters : List SubCluster
  tagged : List Block
deriving Repr

/-- One iteration of the `for block in blocks` loop of `labelBlocks`:
take the state transition, then tag the block with the updated state. -/
def labelStep (lowThresholdInt highThresholdInt : Int) (s : LabelState) (block : Block) :
    LabelState :=
  let s1 :=
    if s.state = "start" then
      -- Always start the first subcluster from the beginning because a
      -- bridge needs to connect two subclusters
      { s with
        subClusters := s.subClusters ++ [SubCluster.init block.start (s.subClusters.length + 1)],
        state := if block.coverage ≤ lowThresholdInt then "edge" else "subCluster" }
    else if s.state = "subCluster" then
      if block.coverage ≤ lowThresholdInt then
        { s with state := "bridge",
                 subClusters := modifyLast (fun sc => sc.close (block.start - 1)) s.subClusters }
      else s
    else if s.state = "bridge" then
      if block.coverage ≥ highThresholdInt then
        { s with state := "subCluster",
                 subClusters := s.subClusters ++
                   [SubCluster.init block.start (s.subClusters.length + 1)] }
      else s
    else
      if block.coverage ≥ highThresholdInt then { s with state := "subCluster" } else s
  { s1 with tagged := { block with state := s1.state } :: s1.tagged }

/-- `labelBlocks(blocks, baseline, lowThreshold, highThreshold)`: run the
state machine, close the last sub-cluster at `blocks[-1].end - 1`, then
either renumber a single sub-cluster to index `0` or prepend the closed
synthetic whole-cluster sub-cluster.  Empty `blocks` would make the
final `subClusters[-1]` an `IndexError`, hence `none`. -/
def labelBlocks (blocks : List Block) (baseline lowThreshold highThreshold : ℚ) :
    Option (List SubCluster × List Block) :=
  match blocks with
  | [] => none
  | b :: bs =>
    let lowThresholdInt := pyInt (lowThreshold * baseline)
    let highThresholdInt := Int.ceil (highThreshold * baseline)
    let final := (b :: bs).foldl (labelStep lowThresholdInt highThresholdInt) ⟨"start", [], []⟩
    let closed := modifyLast (fun sc => sc.close ((bs.getLastD b).endC - 1)) final.subClusters
    let subClusters :=
      if closed.length = 1 then
        -- subClusters[0].index = 0
        closed.map fun sc => { sc with index := 0 }
      else
        ((SubCluster.init b.start 0).close ((bs.getLastD b).endC - 1)) :: closed
    some (subClusters, final.tagged.reverse)

/-- Spec-side reading of the state machine's transition relation (the
table of §4.4), one state string and one block coverage at a time. -/
def nextState (lowI highI : Int) (st : String) (c : Int) : String :=
  if st = "start" then (if c ≤ lowI then "edge" else "subCluster")
  else if st = "subCluster" then (if c ≤ lowI then "bridge" else "subCluster")
  else if st = "bridge" then (if c ≥ highI then "subCluster" else "bridge")
  else (if c ≥ highI then "subCluster" else st)

/-- Number of `bridge`→`subCluster` transitions taken while walking the
blocks from state `st`. -/
def bridgeOpens (lowI highI : Int) : String → List Block → Nat
  | _, [] => 0
  | st, block :: rest =>
    (if st = "bridge" ∧ block.coverage ≥ highI then 1 else 0)
      + bridgeOpens lowI highI (nextState lowI highI st block.coverage) rest

/-- The real (non-synthetic) sub-clusters of a `labelBlocks` result: all of
them when there is no synthetic index-0 entry (output length 1), the tail
otherwise. -/
def realSubClusters (scs : List SubCluster) : List SubCluster :=
  if scs.length ≤ 1 then scs else scs.tail

lemma nextState_ne_start (lowI highI : Int) (st : String) (c : Int) :
    nextState lowI highI st c ≠ "start" := by
  unfold nextState
  by_cases h1 : st = "start"
  · by_cases hc : c ≤ lowI <;> simp [h1, hc]
  · by_cases h2 : st = "subCluster"
    · by_cases hc : c ≤ lowI <;> simp [h1, h2, hc]
    · by_cases h3 : st = "bridge"
      · by_cases hc : c ≥ highI <;> simp [h1, h2, h3, hc]
      · by_cases hc : c ≥ highI <;> simp [h1, h2, h3, hc]

/-- What one `labelStep` does to the machine state and the sub-cluster
list, by case on the current state. -/
lemma labelStep_cases (lowI highI : Int) (s : LabelState) (block : Block) :
    (labelStep lowI highI s block).state = nextState lowI highI s.state block.coverage ∧
    (labelStep lowI highI s block).subClusters =
      (if s.state = "start" then
        s.subClusters ++ [SubCluster.init block.start (s.subClusters.length + 1)]
      else if s.state = "subCluster" then
        (if block.coverage ≤ lowI then
          modifyLast (fun sc => sc.close (block.start - 1)) s.subClusters
        else s.subClusters)
      else if s.state = "bridge" then
        (if block.coverage ≥ highI then
          s.subClusters ++ [SubCluster.init block.start (s.subClusters.length + 1)]
        else s.subClusters)
      else s.subClusters) := by
  unfold labelStep nextState
  by_cases h1 : s.state = "start"
  · by_cases hc : block.coverage ≤ lowI <;> simp [h1, hc]
  · by_cases h2 : s.state = "subCluster"
    · by_cases hc : block.coverage ≤ lowI <;> simp [h1, h2, hc]
    · by_cases h3 : s.state = "bridge"
      · by_cases hc : block.coverage ≥ highI <;> simp [h1, h2, h3, hc]
      · by_cases hc : block.coverage ≥ highI <;> simp [h1, h2, h3, hc]

lemma modifyLast_length (f : α → α) : ∀ (l : List α), (modifyLast f l).length = l.length
  | [] => rfl
  | [_] => rfl
  | a :: b :: rest => by
    simp only [modifyLast, List.length_cons]
    rw [modifyLast_length f (b :: rest)]
    simp

lemma modifyLast_map_eq {f : α → α} {g : α → β} (h : ∀ x, g (f x) = g x) :
    ∀ (l : List α), (modifyLast f l).map g = l.map g
  | [] => rfl
  | [a] => by simp [modifyLast, h a]
  | a :: b :: rest => by
    simp only [modifyLast, List.map_cons]
    rw [modifyLast_map_eq h (b :: rest)]
    simp

lemma modifyLast_head_map {f : α → α} {g : α → β} (h : ∀ x, g (f x) = g x)
    (l : List α) : (modifyLast f l).head?.map g = l.head?.map g := by
  rw [← List.head?_map, ← List.head?_map, modifyLast_map_eq h l]

/-- Invariant of the `labelBlocks` fold once the first block has been
consumed: the machine never returns to `start`, the sub-cluster list stays
non-empty with indices `1..N` in order, its head's start is unchanged, and
its length grows exactly by the `bridge`→`subCluster` transitions. -/
lemma label_fold_inv (lowI highI : Int) :
    ∀ (blocks : List Block) (s : LabelState),
      s.state ≠ "start" → s.subClusters ≠ [] →
      s.subClusters.map SubCluster.index = List.range' 1 s.subClusters.length →
      (List.foldl (labelStep lowI highI) s blocks).state ≠ "start" ∧
      (List.foldl (labelStep lowI highI) s blocks).subClusters ≠ [] ∧
      (List.foldl (labelStep lowI highI) s blocks).subClusters.map SubCluster.index
        = List.range' 1 (List.foldl (labelStep lowI highI) s blocks).subClusters.length ∧
      (List.foldl (labelStep lowI highI) s blocks).subClusters.length
        = s.subClusters.length + bridgeOpens lowI highI s.state blocks ∧
      (List.foldl (labelStep lowI highI) s blocks).subClusters.head?.map SubCluster.start
        = s.subClusters.head?.map SubCluster.start
  | [], s, hst, hne, hidx =>
    ⟨hst, hne, hidx, by simp [bridgeOpens], rfl⟩
  | block :: rest, s, hst, hne, hidx => by
    obtain ⟨hstate, hsubs⟩ := labelStep_cases lowI highI s block
    have hstep_ne : (labelStep lowI highI s block).state ≠ "start" := by
      rw [hstate]; exact nextState_ne_start lowI highI s.state block.coverage
    have happend_idx : ∀ st : Int,
        (s.subClusters ++ [SubCluster.init st (s.subClusters.length + 1)]).map
            SubCluster.index
          = List.range' 1
              (s.subClusters ++ [SubCluster.init st (s.subClusters.length + 1)]).length := by
      intro st
      rw [List.map_append, hidx]
      simp [SubCluster.init, List.range'_concat, Nat.add_comm]
    have hclose_idx : ∀ x : SubCluster,
        SubCluster.index ((fun sc => sc.close (block.start - 1)) x)
          = SubCluster.index x := fun _ => rfl
    -- case analysis on the current state
    by_cases h2 : s.state = "subCluster"
    · have hbr : ¬ (s.state = "bridge" ∧ block.coverage ≥ highI) := by simp [h2]
      by_cases hc : block.coverage ≤ lowI
      · have hsubs' : (labelStep lowI highI s block).subClusters
            = modifyLast (fun sc => sc.close (block.start - 1)) s.subClusters := by
          rw [hsubs]; simp [hst, h2, hc]
        have hlen : (labelStep lowI highI s block).subClusters.length
            = s.subClusters.length := by rw [hsubs', modifyLast_length]
        have hne' : (labelStep lowI highI s block).subClusters ≠ [] := by
          intro h
          rw [h] at hlen
          exact hne (List.length_eq_zero.mp hlen.symm)
        have hidx' : (labelStep lowI highI s block).subClusters.map SubCluster.index
            = List.range' 1 (labelStep lowI highI s block).subClusters.length := by
          rw [hsubs', modifyLast_map_eq hclose_idx, hidx, modifyLast_length]
        obtain ⟨g1, g2, g3, g4, g5⟩ :=
          label_fold_inv lowI highI rest (labelStep lowI highI s block) hstep_ne hne' hidx'
        refine ⟨g1, g2, g3, ?_, ?_⟩
        · rw [List.foldl_cons] at *
          rw [g4, hlen, hstate, bridgeOpens, if_neg hbr]
          omega
        · rw [List.foldl_cons] at *
          rw [g5, hsubs', modifyLast_head_map
            (show ∀ x : SubCluster,
                SubCluster.start ((fun sc => sc.close (block.start - 1)) x)
                  = SubCluster.start x from fun _ => rfl)]
      · have hsubs' : (labelStep lowI highI s block).subClusters = s.subClusters := by
          rw [hsubs]; simp [hst, h2, hc]
        obtain ⟨g1, g2, g3, g4, g5⟩ :=
          label_fold_inv lowI highI rest (labelStep lowI highI s block) hstep_ne
            (hsubs' ▸ hne) (by rw [hsubs']; exact hidx)
        refine ⟨g1, g2, g3, ?_, ?_⟩
        · rw [List.foldl_cons] at *
          rw [g4, hsubs', hstate, bridgeOpens, if_neg hbr]
          omega
        · rw [List.foldl_cons] at *
          rw [g5, hsubs']
    · by_cases h3 : s.state = "bridge"
      · by_cases hc : block.coverage ≥ highI
        · have hbr : s.state = "bridge" ∧ block.coverage ≥ highI := ⟨h3, hc⟩
          have hsubs' : (labelStep lowI highI s block).subClusters
              = s.subClusters ++ [SubCluster.init block.start (s.subClusters.length + 1)] := by
            rw [hsubs]; simp [hst, h2, h3, hc]
          have hne' : (labelStep lowI highI s block).subClusters ≠ [] := by
            rw [hsubs']; simp
          have hidx' : (labelStep lowI highI s block).subClusters.map SubCluster.index
              = List.range' 1 (labelStep lowI highI s block).subClusters.length := by
            rw [hsubs']; exact happend_idx block.start
          obtain ⟨g1, g2, g3, g4, g5⟩ :=
            label_fold_inv lowI highI rest (labelStep lowI highI s block) hstep_ne hne' hidx'
          refine ⟨g1, g2, g3, ?_, ?_⟩
          · rw [List.foldl_cons] at *
            rw [g4, hsubs', hstate, bridgeOpens, if_pos hbr]
            simp only [List.length_append, List.length_cons, List.length_nil]
            omega
          · rw [List.foldl_cons] at *
            rw [g5, hsubs']
            cases hs : s.subClusters with
            | nil => exact absurd hs hne
            | cons a t => simp
        · have hbr : ¬ (s.state = "bridge" ∧ block.coverage ≥ highI) := by
            simp [h3, hc]
          have hsubs' : (labelStep lowI highI s block).subClusters = s.subClusters := by
            rw [hsubs]; simp [hst, h2, h3, hc]
          obtain ⟨g1, g2, g3, g4, g5⟩ :=
            label_fold_inv lowI highI rest (labelStep lowI highI s block) hstep_ne
              (hsubs' ▸ hne) (by rw [hsubs']; exact hidx)
          refine ⟨g1, g2, g3, ?_, ?_⟩
          · rw [List.foldl_cons] at *
            rw [g4, hsubs', hstate, bridgeOpens, if_neg hbr]
            omega
          · rw [List.foldl_cons] at *
            rw [g5, hsubs']
      · have hbr : ¬ (s.state = "bridge" ∧ block.coverage ≥ highI) := by simp [h3]
        have hsubs' : (labelStep lowI highI s block).subClusters = s.subClusters := by
          rw [hsubs]; simp [hst, h2, h3]
        obtain ⟨g1, g2, g3, g4, g5⟩ :=
          label_fold_inv lowI highI rest (labelStep lowI highI s block) hstep_ne
            (hsubs' ▸ hne) (by rw [hsubs']; exact hidx)
        refine ⟨g1, g2, g3, ?_, ?_⟩
        · rw [List.foldl_cons] at *
          rw [g4, hsubs', hstate, bridgeOpens, if_neg hbr]
          omega
        · rw [List.foldl_cons] at *
          rw [g5, hsubs']

/-- Structural facts about `labelBlocks` on a non-empty block list,
collected once and shared by the renumbering and counting theorems. -/
lemma labelBlocks_core (b : Block) (bs : List Block)
    (baseline lowThreshold highThreshold : ℚ) :
    ∃ scs tagged, labelBlocks (b :: bs) baseline lowThreshold highThreshold
        = some (scs, tagged) ∧
      scs ≠ [] ∧
      (scs.length = 1 → scs.map SubCluster.index = [0] ∧
        scs.head?.map SubCluster.start = some b.start) ∧
      (1 < scs.length →
        scs.head? = some ⟨b.start, (bs.getLastD b).endC - 1, 0, []⟩ ∧
        scs.tail.map SubCluster.index = List.range' 1 (scs.length - 1) ∧
        scs.tail.head?.map SubCluster.start = some b.start) ∧
      (realSubClusters scs).length
        = 1 + bridgeOpens (pyInt (lowThreshold * baseline))
            (Int.ceil (highThreshold * baseline)) "start" (b :: bs) ∧
      (realSubClusters scs).head?.map SubCluster.start = some b.start := by
  set lowI := pyInt (lowThreshold * baseline) with hlowI
  set highI := Int.ceil (highThreshold * baseline) with hhighI
  set s0 : LabelState := ⟨"start", [], []⟩ with hs0
  set s1 := labelStep lowI highI s0 b with hs1
  obtain ⟨hstate1, hsubs1⟩ := labelStep_cases lowI highI s0 b
  have hsubs1' : s1.subClusters = [SubCluster.init b.start 1] := by
    rw [hs1, hsubs1]
    simp [hs0]
  have hstate1' : s1.state ≠ "start" := by
    rw [hs1, hstate1]
    exact nextState_ne_start lowI highI s0.state b.coverage
  have hidx1 : s1.subClusters.map SubCluster.index
      = List.range' 1 s1.subClusters.length := by
    rw [hsubs1']
    rfl
  obtain ⟨gstate, gne, gidx, glen, ghead⟩ :=
    label_fold_inv lowI highI bs s1 hstate1' (by rw [hsubs1']; simp) hidx1
  set F := List.foldl (labelStep lowI highI) s1 bs with hF
  have hfhead : F.subClusters.head?.map SubCluster.start = some b.start := by
    rw [ghead, hsubs1']
    rfl
  have hbo : bridgeOpens lowI highI "start" (b :: bs)
      = bridgeOpens lowI highI s1.state bs := by
    rw [bridgeOpens]
    have : nextState lowI highI "start" b.coverage = s1.state := by
      rw [hs1, hstate1]
    rw [this]
    simp
  set lastEnd := (bs.getLastD b).endC - 1 with hlastEnd
  set closed := modifyLast (fun sc => sc.close lastEnd) F.subClusters with hclosed
  have hstartpres : ∀ x : SubCluster,
      SubCluster.start ((fun sc => sc.close lastEnd) x) = SubCluster.start x :=
    fun _ => rfl
  have hidxpres : ∀ x : SubCluster,
      SubCluster.index ((fun sc => sc.close lastEnd) x) = SubCluster.index x :=
    fun _ => rfl
  have hclen : closed.length = F.subClusters.length := modifyLast_length _ _
  have hcne : closed ≠ [] := by
    intro h
    rw [h] at hclen
    exact gne (List.length_eq_zero.mp hclen.symm)
  have hcidx : closed.map SubCluster.index = List.range' 1 closed.length := by
    rw [hclosed, modifyLast_map_eq hidxpres, gidx, hclen]
  have hchead : closed.head?.map SubCluster.start = some b.start := by
    rw [hclosed, modifyLast_head_map hstartpres, hfhead]
  have hunfold : labelBlocks (b :: bs) baseline lowThreshold highThreshold
      = some ((if closed.length = 1 then closed.map fun sc => { sc with index := 0 }
               else ((SubCluster.init b.start 0).close lastEnd) :: closed),
              F.tagged.reverse) := by
    show labelBlocks (b :: bs) baseline lowThreshold highThreshold = _
    simp only [labelBlocks]
    rw [List.foldl_cons]
  have glen' : F.subClusters.length = 1 + bridgeOpens lowI highI s1.state bs := by
    rw [glen, hsubs1']
    rfl
  by_cases hone : closed.length = 1
  · obtain ⟨c0, hc0⟩ := List.length_eq_one.mp hone
    have hbo0 : bridgeOpens lowI highI s1.state bs = 0 := by
      rw [hclen, glen'] at hone
      omega
    have hlen1 : (closed.map fun sc => { sc with index := 0 }).length ≤ 1 := by
      rw [List.length_map, hc0]
      rfl
    refine ⟨closed.map fun sc => { sc with index := 0 }, F.tagged.reverse,
      ?_, ?_, ?_, ?_, ?_, ?_⟩
    · rw [hunfold, if_pos hone]
    · rw [hc0]
      simp
    · intro _
      constructor
      · rw [hc0]
        rfl
      · rw [hc0]
        rw [hc0] at hchead
        simpa using hchead
    · intro h
      rw [hc0] at h
      simp at h
    · rw [realSubClusters, if_pos hlen1, List.length_map, hone, hbo, hbo0]
    · rw [realSubClusters, if_pos hlen1, hc0]
      rw [hc0] at hchead
      simpa using hchead
  · have hpos : 0 < closed.length := List.length_pos.mpr hcne
    have h2le : 2 ≤ closed.length := by omega
    have hnotle :
        ¬ ((((SubCluster.init b.start 0).close lastEnd) :: closed).length ≤ 1) := by
      simp only [List.length_cons]
      omega
    refine ⟨((SubCluster.init b.start 0).close lastEnd) :: closed, F.tagged.reverse,
      ?_, ?_, ?_, ?_, ?_, ?_⟩
    · rw [hunfold, if_neg hone]
    · simp
    · intro h
      simp only [List.length_cons] at h
      omega
    · intro _
      refine ⟨rfl, ?_, ?_⟩
      · simp only [List.tail_cons, List.length_cons, Nat.add_sub_cancel]
        exact hcidx
      · simpa using hchead
    · rw [realSubClusters, if_neg hnotle]
      simp only [List.tail_cons]
      rw [hclen, glen', hbo]
    · rw [realSubClusters, if_neg hnotle]
      simpa using hchead

/-- C3: if `labelBlocks` ends with exactly one sub-cluster it is renumbered
to index `0` with no synthetic duplicate added; with more than one, a
closed synthetic sub-cluster of index `0` spanning
`[first block start, last block end - 1]` is prepended and the real
sub-clusters keep indices `1..N` in left-to-right order. -/
theorem labelBlocks_renumber (blocks : List Block) (hne : blocks ≠ [])
    (baseline lowThreshold highThreshold : ℚ) :
    ∃ scs tagged, labelBlocks blocks baseline lowThreshold highThreshold
        = some (scs, tagged) ∧
      scs ≠ [] ∧
      (scs.length = 1 → scs.map SubCluster.index = [0]) ∧
      (1 < scs.length →
        scs.head? = some ⟨(blocks.head hne).start, (blocks.getLast hne).endC - 1, 0, []⟩ ∧
        scs.tail.map SubCluster.index = List.range' 1 (scs.length - 1)) := by
  match blocks, hne with
  | b :: bs, _ =>
    obtain ⟨scs, tagged, h1, h2, h3, h4, _, _⟩ :=
      labelBlocks_core b bs baseline lowThreshold highThreshold
    refine ⟨scs, tagged, h1, h2, fun h => (h3 h).1, fun h => ?_⟩
    rw [List.head_cons, List.getLast_eq_getLastD]
    exact ⟨(h4 h).1, (h4 h).2.1⟩

/-- Witness for `labelBlocks_renumber` at a one-block list. -/
theorem labelBlocks_renumber_witness :
    ∃ scs tagged, labelBlocks [⟨1, 5, 3, ""⟩] 10 (1/10) (1/5) = some (scs, tagged) ∧
      scs ≠ [] ∧
      (scs.length = 1 → scs.map SubCluster.index = [0]) ∧
      (1 < scs.length →
        scs.head? = some ⟨1, 5 - 1, 0, []⟩ ∧
        scs.tail.map SubCluster.index = List.range' 1 (scs.length - 1)) :=
  labelBlocks_renumber [⟨1, 5, 3, ""⟩] (by decide) 10 (1/10) (1/5)

/-- C4: the first block always opens sub-cluster #1 at its own start,
whatever its depth; `edge`→`subCluster` opens nothing, and
`bridge`→`subCluster` is the only transition opening a sub-cluster beyond
#1, so the number of real sub-clusters is `1` plus the number of
`bridge`→`subCluster` transitions taken. -/
theorem labelBlocks_opens (blocks : List Block) (hne : blocks ≠ [])
    (baseline lowThreshold highThreshold : ℚ) :
    ∃ scs tagged, labelBlocks blocks baseline lowThreshold highThreshold
        = some (scs, tagged) ∧
      (realSubClusters scs).length
        = 1 + bridgeOpens (pyInt (lowThreshold * baseline))
            (Int.ceil (highThreshold * baseline)) "start" blocks ∧
      (realSubClusters scs).head?.map SubCluster.start
        = some (blocks.head hne).start := by
  match blocks, hne with
  | b :: bs, _ =>
    obtain ⟨scs, tagged, h1, _, _, _, h5, h6⟩ :=
      labelBlocks_core b bs baseline lowThreshold highThreshold
    exact ⟨scs, tagged, h1, h5, by rw [List.head_cons]; exact h6⟩

/-- Witness for `labelBlocks_opens` at a one-block list. -/
theorem labelBlocks_opens_witness :
    ∃ scs tagged, labelBlocks [⟨1, 5, 3, ""⟩] 10 (1/10) (1/5) = some (scs, tagged) ∧
      (realSubClusters scs).length
        = 1 + bridgeOpens (pyInt (((1 : ℚ)/10) * 10)) (Int.ceil (((1 : ℚ)/5) * 10)) "start"
            [⟨1, 5, 3, ""⟩] ∧
      (realSubClusters scs).head?.map SubCluster.start = some 1 :=
  labelBlocks_opens [⟨1, 5, 3, ""⟩] (by decide) 10 (1/10) (1/5)

/-! ### Seed assignment (`assignSeedsToSubsclusters`) -/

def MARGIN : Int := 100

/-- The body of the inner `for key in list(seeds.keys())` loop of
`assignSeedsToSubsclusters`, folded over the working mapping.  The
accumulator carries the sub-cluster being filled and the entries that
survive in the working mapping (an entry is deleted by simply not being
kept). -/
def assignSeed (subcluster : SubCluster) (acc : SubCluster × List (String × Seed))
    (kv : String × Seed) : SubCluster × List (String × Seed) :=
  let seed := kv.2
  if subcluster.index = 0 then
    -- the subcluster with zero index always covers the whole cluster
    (acc.1.addSeed seed, acc.2 ++ [kv])
  else if seed.start < subcluster.start - MARGIN then
    -- starts before this subcluster: delete
    acc
  else if seed.start > subcluster.endC then
    -- starts after this subcluster: deal with it later
    (acc.1, acc.2 ++ [kv])
  else if seed.endC ≤ subcluster.endC + MARGIN then
    -- starts inside; add it if it also ends inside (+ margin), delete
    (acc.1.addSeed seed, acc.2)
  else
    (acc.1, acc.2)

/-- `assignSeedsToSubsclusters(subClusters, seeds)`: process the
sub-clusters left to right, each one scanning (and narrowing) the
working seed mapping. -/
def assignSeedsToSubsclusters : List SubCluster → List (String × Seed) →
    List SubCluster × List (String × Seed)
  | [], seeds => ([], seeds)
  | sc :: rest, seeds =>
    let r := seeds.foldl (assignSeed sc) (sc, [])
    let rr := assignSeedsToSubsclusters rest r.2
    (r.1 :: rr.1, rr.2)

/-- C7: with `MARGIN = 100`, a seed whose start falls within
`[subcluster.start - 100, subcluster.end]` is removed from the working
mapping, and is attached to the real sub-cluster exactly when
`seed.end ≤ subcluster.end + 100` — an end exactly 100 past is included,
anything farther is excluded. -/
theorem assignSeed_margin (subcluster : SubCluster)
    (acc : SubCluster × List (String × Seed)) (kv : String × Seed)
    (hidx : subcluster.index ≠ 0)
    (h1 : subcluster.start - 100 ≤ kv.2.start) (h2 : kv.2.start ≤ subcluster.endC) :
    (assignSeed subcluster acc kv).2 = acc.2 ∧
    ((assignSeed subcluster acc kv).1.seeds = acc.1.seeds ++ [kv.2]
      ↔ kv.2.endC ≤ subcluster.endC + 100) ∧
    (¬ kv.2.endC ≤ subcluster.endC + 100 →
      (assignSeed subcluster acc kv).1 = acc.1) := by
  have hd : ¬ kv.2.start < subcluster.start - MARGIN := by
    rw [MARGIN]; omega
  have hl : ¬ kv.2.start > subcluster.endC := by omega
  by_cases hm : kv.2.endC ≤ subcluster.endC + MARGIN
  · have hm' : kv.2.endC ≤ subcluster.endC + 100 := by rw [MARGIN] at hm; exact hm
    refine ⟨?_, ?_, ?_⟩
    · simp [assignSeed, hidx, hd, hl, hm]
    · simp [assignSeed, hidx, hd, hl, hm, SubCluster.addSeed, hm']
    · intro h
      exact absurd hm' h
  · have hm' : ¬ kv.2.endC ≤ subcluster.endC + 100 := by rw [MARGIN] at hm; exact hm
    refine ⟨?_, ?_, ?_⟩
    · simp [assignSeed, hidx, hd, hl, hm]
    · have hres : (assignSeed subcluster acc kv).1 = acc.1 := by
        simp [assignSeed, hidx, hd, hl, hm]
      constructor
      · intro habs
        rw [hres] at habs
        have := congrArg List.length habs
        simp at this
      · intro h
        exact absurd h hm'
    · intro _
      simp [assignSeed, hidx, hd, hl, hm]

/-- Witness for `assignSeed_margin`: a seed `[950, 2100]` hitting a real
sub-cluster `[1000, 2000]` — its end is exactly 100 past the sub-cluster's
end, so the iff decides inclusion. -/
theorem assignSeed_margin_witness :
    (assignSeed ⟨1000, 2000, 1, []⟩ (⟨1000, 2000, 1, []⟩, [])
        ("a", ⟨"chr1", "p1", 950, 2100, 10, "+", "c1"⟩)).2 = [] ∧
    ((assignSeed ⟨1000, 2000, 1, []⟩ (⟨1000, 2000, 1, []⟩, [])
        ("a", ⟨"chr1", "p1", 950, 2100, 10, "+", "c1"⟩)).1.seeds
      = [] ++ [⟨"chr1", "p1", 950, 2100, 10, "+", "c1"⟩]
      ↔ (2100 : Int) ≤ 2000 + 100) ∧
    (¬ (2100 : Int) ≤ 2000 + 100 →
      (assignSeed ⟨1000, 2000, 1, []⟩ (⟨1000, 2000, 1, []⟩, [])
        ("a", ⟨"chr1", "p1", 950, 2100, 10, "+", "c1"⟩)).1 = ⟨1000, 2000, 1, []⟩) :=
  assignSeed_margin ⟨1000, 2000, 1, []⟩ (⟨1000, 2000, 1, []⟩, [])
    ("a", ⟨"chr1", "p1", 950, 2100, 10, "+", "c1"⟩)
    (by decide) (by decide) (by decide)

/-- The pass of the synthetic index-0 sub-cluster: every seed is attached
and the working mapping is left untouched. -/
lemma assignSeed_zero_fold (sc : SubCluster) (hidx : sc.index = 0) :
    ∀ (seeds : List (String × Seed)) (acc : SubCluster × List (String × Seed)),
      seeds.foldl (assignSeed sc) acc
        = ({ acc.1 with seeds := acc.1.seeds ++ seeds.map Prod.snd }, acc.2 ++ seeds)
  | [], acc => by simp
  | kv :: rest, acc => by
    simp only [List.foldl_cons]
    rw [assignSeed_zero_fold sc hidx rest _]
    simp [assignSeed, hidx, SubCluster.addSeed]

/-- The pass of a real sub-cluster: it appends some sub-multiset `added`
of the working seeds, and the surviving mapping `kept` together with
`added` never exceeds the original multiset. -/
lemma assignSeed_fold_partition (sc : SubCluster) (hidx : sc.index ≠ 0) :
    ∀ (seeds : List (String × Seed)) (acc : SubCluster × List (String × Seed)),
      ∃ added kept, seeds.foldl (assignSeed sc) acc
          = ({ acc.1 with seeds := acc.1.seeds ++ added }, acc.2 ++ kept) ∧
        ((added : Multiset Seed) + (kept.map Prod.snd : Multiset Seed)
          ≤ (seeds.map Prod.snd : Multiset Seed))
  | [], acc => ⟨[], [], by simp, by simp⟩
  | kv :: rest, acc => by
    simp only [List.foldl_cons]
    by_cases h2 : kv.2.start < sc.start - MARGIN
    · -- deleted: not added, not kept
      obtain ⟨added, kept, heq, hle⟩ := assignSeed_fold_partition sc hidx rest
        (assignSeed sc acc kv)
      have hstep : assignSeed sc acc kv = acc := by
        simp [assignSeed, hidx, h2]
      rw [hstep] at heq
      refine ⟨added, kept, ?_, le_trans hle ?_⟩
      · rw [hstep, heq]
      · simp only [List.map_cons]
        exact Multiset.le_cons_self _ _
    · by_cases h3 : kv.2.start > sc.endC
      · -- deferred: kept
        obtain ⟨added, kept, heq, hle⟩ := assignSeed_fold_partition sc hidx rest
          (assignSeed sc acc kv)
        have hstep : assignSeed sc acc kv = (acc.1, acc.2 ++ [kv]) := by
          simp [assignSeed, hidx, h2, h3]
        rw [hstep] at heq
        refine ⟨added, kv :: kept, ?_, ?_⟩
        · rw [hstep, heq]
          simp [List.append_assoc]
        · simp only [List.map_cons]
          rw [← Multiset.cons_coe, ← Multiset.cons_coe]
          rw [Multiset.add_cons]
          exact Multiset.cons_le_cons _ hle
      · by_cases h4 : kv.2.endC ≤ sc.endC + MARGIN
        · -- added and removed
          obtain ⟨added, kept, heq, hle⟩ := assignSeed_fold_partition sc hidx rest
            (assignSeed sc acc kv)
          have hstep : assignSeed sc acc kv = (acc.1.addSeed kv.2, acc.2) := by
            simp [assignSeed, hidx, h2, h3, h4]
          rw [hstep] at heq
          refine ⟨kv.2 :: added, kept, ?_, ?_⟩
          · rw [hstep, heq]
            simp [SubCluster.addSeed, List.append_assoc]
          · simp only [List.map_cons]
            rw [← Multiset.cons_coe, ← Multiset.cons_coe]
            rw [Multiset.cons_add]
            exact Multiset.cons_le_cons _ hle
        · -- neither added nor kept
          obtain ⟨added, kept, heq, hle⟩ := assignSeed_fold_partition sc hidx rest
            (assignSeed sc acc kv)
          have hstep : assignSeed sc acc kv = (acc.1, acc.2) := by
            simp [assignSeed, hidx, h2, h3, h4]
          rw [hstep] at heq
          refine ⟨added, kept, ?_, le_trans hle ?_⟩
          · rw [hstep, heq]
          · simp only [List.map_cons]
            exact Multiset.le_cons_self _ _

/-- Scanning the real sub-clusters attaches, over all of them together, a
sub-multiset of the working seeds. -/
lemma assign_rest_subperm : ∀ (rest : List SubCluster) (seeds : List (String × Seed)),
    (∀ sc ∈ rest, sc.index ≠ 0) → (∀ sc ∈ rest, sc.seeds = []) →
    ((((assignSeedsToSubsclusters rest seeds).1.map SubCluster.seeds).flatten :
        List Seed) : Multiset Seed)
      ≤ (seeds.map Prod.snd : Multiset Seed)
  | [], seeds, _, _ => by simp [assignSeedsToSubsclusters]
  | sc :: rest2, seeds, hidx, hseeds => by
    obtain ⟨added, kept, heq, hle⟩ :=
      assignSeed_fold_partition sc (hidx sc (by simp)) seeds (sc, [])
    have ih := assign_rest_subperm rest2 kept
      (fun x hx => hidx x (by simp [hx])) (fun x hx => hseeds x (by simp [hx]))
    simp only [assignSeedsToSubsclusters]
    rw [heq]
    simp only [List.map_cons, List.flatten_cons]
    have hsc : sc.seeds = [] := hseeds sc (by simp)
    rw [hsc]
    simp only [List.nil_append]
    calc ((added ++ ((assignSeedsToSubsclusters rest2 kept).1.map
            SubCluster.seeds).flatten : List Seed) : Multiset Seed)
        = (added : Multiset Seed)
            + (((assignSeedsToSubsclusters rest2 kept).1.map
                SubCluster.seeds).flatten : Multiset Seed) := by
          rw [← Multiset.coe_add]
      _ ≤ (added : Multiset Seed) + (kept.map Prod.snd : Multiset Seed) :=
          add_le_add_left ih _
      _ ≤ (seeds.map Prod.snd : Multiset Seed) := hle

/-- C5: running `assignSeedsToSubsclusters` on the index-0 sub-cluster
followed by the real ones attaches every seed of the working mapping to
sub-cluster 0, while the seeds attached to the real sub-clusters form a
sub-multiset of the working mapping — each seed is attached to at most one
real sub-cluster. -/
theorem assignSeeds_partition (sc0 : SubCluster) (rest : List SubCluster)
    (seeds : List (String × Seed)) (h0 : sc0.index = 0)
    (hr : ∀ sc ∈ rest, sc.index ≠ 0) (h0s : sc0.seeds = [])
    (hrs : ∀ sc ∈ rest, sc.seeds = []) :
    ∃ out0 outr,
      (assignSeedsToSubsclusters (sc0 :: rest) seeds).1 = out0 :: outr ∧
      out0.seeds = seeds.map Prod.snd ∧
      (((outr.map SubCluster.seeds).flatten : List Seed) : Multiset Seed)
        ≤ (seeds.map Prod.snd : Multiset Seed) := by
  simp only [assignSeedsToSubsclusters]
  rw [assignSeed_zero_fold sc0 h0 seeds (sc0, [])]
  refine ⟨{ sc0 with seeds := sc0.seeds ++ seeds.map Prod.snd },
    (assignSeedsToSubsclusters rest ([] ++ seeds)).1, rfl, ?_, ?_⟩
  · rw [h0s]
    rfl
  · rw [List.nil_append]
    exact assign_rest_subperm rest seeds hr hrs

/-- Witness for `assignSeeds_partition`: two seeds, a synthetic sub-cluster
and two real ones. -/
theorem assignSeeds_partition_witness :
    ∃ out0 outr,
      (assignSeedsToSubsclusters
          [⟨0, 1000, 0, []⟩, ⟨0, 400, 1, []⟩, ⟨600, 1000, 2, []⟩]
          [("a", ⟨"chr1", "p1", 100, 300, 10, "+", "c1"⟩),
           ("b", ⟨"chr1", "p2", 650, 900, 5, "+", "c1"⟩)]).1 = out0 :: outr ∧
      out0.seeds = ([("a", (⟨"chr1", "p1", 100, 300, 10, "+", "c1"⟩ : Seed)),
           ("b", ⟨"chr1", "p2", 650, 900, 5, "+", "c1"⟩)].map Prod.snd) ∧
      (((outr.map SubCluster.seeds).flatten : List Seed) : Multiset Seed)
        ≤ (([("a", (⟨"chr1", "p1", 100, 300, 10, "+", "c1"⟩ : Seed)),
           ("b", ⟨"chr1", "p2", 650, 900, 5, "+", "c1"⟩)].map Prod.snd :
            List Seed) : Multiset Seed) :=
  assignSeeds_partition ⟨0, 1000, 0, []⟩ [⟨0, 400, 1, []⟩, ⟨600, 1000, 2, []⟩]
    [("a", ⟨"chr1", "p1", 100, 300, 10, "+", "c1"⟩),
     ("b", ⟨"chr1", "p2", 650, 900, 5, "+", "c1"⟩)]
    (by decide) (by decide) (by decide) (by decide)

/-! ### Ranked pair output (`printPairs`) -/

/-- Python `round(x, 2)`, modelled over `ℚ` by rounding `100·x` to the
nearest integer.  (The binary-float tie-breaking of the real `round` is
irrelevant to the properties proved here.) -/
def round2 (q : ℚ) : ℚ := ((round (q * 100) : ℤ) : ℚ) / 100

/-- `subCluster.seeds.sort(reverse=True)` under `Seed.__lt__` (score
comparison): a stable descending sort by score. -/
def sortSeedsDesc (seeds : List Seed) : List Seed :=
  seeds.mergeSort (fun a b => decide (b.score ≤ a.score))

/-- One output line of `printPairs`. -/
def pairEntry (index : Nat) (seed : Seed) : String × String × ℚ :=
  (seed.clusterID ++ "_" ++ toString index, seed.protein, round2 seed.score)

/-- The `for counter, seed in enumerate(...)` loop of `printPairs`: write
the pair, then break once `counter == topN - 1`. -/
def emitPairs (index : Nat) (topN : Int) : Nat → List Seed → List (String × String × ℚ)
  | _, [] => []
  | counter, seed :: rest =>
    pairEntry index seed ::
      (if (counter : Int) = topN - 1 then [] else emitPairs index topN (counter + 1) rest)

/-- `printPairs(output, subClusters, topN)` as the list of lines written. -/
def printPairs (subClusters : List SubCluster) (topN : Int) :
    List (String × String × ℚ) :=
  (subClusters.map fun sc => emitPairs sc.index topN 0 (sortSeedsDesc sc.seeds)).flatten

/-- While the counter is still below `topN`, the emission loop takes
exactly the `topN - counter` next seeds. -/
lemma emitPairs_take (index : Nat) (topN : Int) :
    ∀ (l : List Seed) (counter : Nat), (counter : Int) < topN →
      emitPairs index topN counter l
        = (l.take (topN - counter).toNat).map (pairEntry index)
  | [], counter, h => by simp [emitPairs]
  | seed :: rest, counter, h => by
    rw [emitPairs]
    by_cases hb : (counter : Int) = topN - 1
    · have h1 : (topN - counter).toNat = 1 := by omega
      rw [if_pos hb, h1]
      simp
    · have hlt : ((counter + 1 : Nat) : Int) < topN := by
        push_cast
        omega
      rw [if_neg hb, emitPairs_take index topN rest (counter + 1) hlt]
      have h1 : (topN - counter).toNat = (topN - (counter + 1 : Nat)).toNat + 1 := by
        push_cast
        omega
      rw [h1]
      simp

/-- With a non-positive `topN` the break condition `counter == topN - 1`
can never be met, so the loop emits every seed. -/
lemma emitPairs_nonpos (index : Nat) (topN : Int) (hn : topN ≤ 0) :
    ∀ (l : List Seed) (counter : Nat),
      (emitPairs index topN counter l).length = l.length
  | [], counter => by simp [emitPairs]
  | seed :: rest, counter => by
    rw [emitPairs]
    have hb : ¬ ((counter : Int) = topN - 1) := by omega
    rw [if_neg hb]
    simp only [List.length_cons]
    rw [emitPairs_nonpos index topN hn rest (counter + 1)]

/-- C6 (amended): for `maxProteinsPerSeed ≥ 1`, the pairs `printPairs`
emits for each sub-cluster are its seeds sorted by descending score
(stably), truncated to the first `topN`; for `topN ≤ 0` the loop's break
condition never fires, so no truncation happens. -/
theorem printPairs_ranked (subClusters : List SubCluster) (topN : Int)
    (h : 1 ≤ topN) :
    printPairs subClusters topN
      = (subClusters.map fun sc =>
          ((sortSeedsDesc sc.seeds).take topN.toNat).map (pairEntry sc.index)).flatten ∧
    ∀ sc ∈ subClusters,
      List.Sorted (fun a b : Seed => b.score ≤ a.score) (sortSeedsDesc sc.seeds) ∧
      List.Perm (sortSeedsDesc sc.seeds) sc.seeds := by
  constructor
  · have hmap : List.map (fun sc => emitPairs sc.index topN 0 (sortSeedsDesc sc.seeds))
        subClusters
      = List.map (fun sc =>
          ((sortSeedsDesc sc.seeds).take topN.toNat).map (pairEntry sc.index))
        subClusters := by
      rw [List.map_inj_left]
      intro sc _
      rw [emitPairs_take sc.index topN (sortSeedsDesc sc.seeds) 0 (by omega)]
      norm_num
    rw [printPairs, hmap]
  · intro sc _
    constructor
    · have hs := @List.sorted_mergeSort Seed
        (fun a b : Seed => decide (b.score ≤ a.score))
        (fun a b c hab hbc => by
          simp only [decide_eq_true_eq] at hab hbc ⊢
          exact le_trans hbc hab)
        (fun a b => by
          simp only [Bool.or_eq_true, decide_eq_true_eq]
          exact le_total b.score a.score)
        sc.seeds
      rw [sortSeedsDesc]
      exact hs.imp (fun hab => of_decide_eq_true hab)
    · exact List.mergeSort_perm sc.seeds _

/-- A one-seed sub-cluster used by the `printPairs` theorems. -/
def samplePairSC : SubCluster := ⟨0, 10, 1, [sampleSeed]⟩

/-- Witness for `printPairs_ranked` at one sub-cluster and `topN = 1`. -/
theorem printPairs_ranked_witness :
    printPairs [samplePairSC] 1
      = ([samplePairSC].map fun sc =>
          ((sortSeedsDesc sc.seeds).take (1 : Int).toNat).map (pairEntry sc.index)).flatten ∧
    ∀ sc ∈ [samplePairSC],
      List.Sorted (fun a b : Seed => b.score ≤ a.score) (sortSeedsDesc sc.seeds) ∧
      List.Perm (sortSeedsDesc sc.seeds) sc.seeds :=
  printPairs_ranked [samplePairSC] 1 (by decide)

/-- C6 counterexample: with `maxProteinsPerSeed = 0` the claim's
truncation bound fails — a sub-cluster with one seed emits one pair, not
at most zero. -/
theorem printPairs_topN_zero :
    (printPairs [samplePairSC] 0).length = 1 ∧
    ¬ ((printPairs [samplePairSC] 0).length ≤ (0 : Int).toNat) := by
  have h : (printPairs [samplePairSC] 0).length = 1 := by
    rw [printPairs]
    simp only [List.map_cons, List.map_nil, List.flatten_cons, List.flatten_nil,
      List.append_nil, List.length_append]
    rw [emitPairs_nonpos samplePairSC.index 0 le_rfl]
    rw [sortSeedsDesc, List.length_mergeSort]
    rfl
  exact ⟨h, by rw [h]; decide⟩

end SplitSeedCluster
